import Mathlib

/-!
# Verification of the Gimli-Parser symbol extractor (src/main.rs)

Shallow embedding of the DWARF symbol-extraction engine of `src/main.rs`:
the depth-first walk over a translation unit's debugging-information
entries, the per-tag handlers (`dw_tag_subprogram_handler`,
`dw_tag_variable_handler`, `dw_tag_default_handler`), the per-attribute
decoders (`dw_at_name_handler`, `dw_at_type_handler`,
`dw_at_location_handler`) and the global symbol table
(`SUBPROGRAM_MAP` / `CURRENT_SUBPROGRAM`).

The on-disk DWARF decoding is performed by the external `gimli` crate and
is out of scope; entries arrive already decoded as `(delta_depth, entry)`
pairs with attribute name/value pairs, exactly the view the handlers in
`src/main.rs` consume.  The location-expression stack machine lives in the
external crate as well; it is modelled from the specification's contract
(section 4.3) where noted.
-/

namespace GimliParser

/-- `Variable` of src/main.rs: a local variable record.
`location` is a stack offset, `none` when not statically determined. -/
structure Variable where
  name : String
  var_type : Nat
  location : Option Int
deriving Repr, DecidableEq

/-- `Subprogram` of src/main.rs: a function record, keyed in the symbol
table by `linkage_name`.  The field `vars` embeds the Rust field
`variables` (`variables` is a reserved word in Lean). -/
structure Subprogram where
  name : String
  linkage_name : String
  ret_type : Nat
  vars : List Variable
deriving Repr, DecidableEq

/-- The errors the embedded handlers can surface.  `UnsupportedOffset`
is `gimli::Error::UnsupportedOffset` raised by `dw_at_type_handler`;
`StringResolve` stands for the (recoverable) failure of
`unit.attr_string`; `unwrapNone` models a `.unwrap()` on `None`
(a panic in the Rust source, which likewise aborts the walk). -/
inductive WalkErr where
  | UnsupportedOffset
  | StringResolve
  | unwrapNone
deriving Repr, DecidableEq

/-- Modelled from the spec: the operations of the location-expression
stack machine that the evaluator distinguishes (section 4.3): pushing a
constant, a frame-base-relative constant (the machine must request the
frame base), and a register-relative constant (the machine must request
the register's value, an external input other than the frame base). -/
inductive Op where
  | consts (k : Int)
  | fbreg (off : Int)
  | breg (r : Nat) (off : Int)
deriving Repr, DecidableEq

/-- The attribute-value encodings `src/main.rs` distinguishes:
a unit-local reference (`AttributeValue::UnitRef`), a string-table
reference resolved through the unit, a direct string, an executable
location expression (`exprloc`), and every other encoding. -/
inductive AttrValue where
  | unitRef (offset : Nat)
  | debugStrRef (offset : Nat)
  | str (s : String)
  | exprloc (e : List Op)
  | other (raw : Nat)
deriving Repr, DecidableEq

/-- The attribute names the handlers of src/main.rs match on; every other
name falls into the wildcard arm. -/
inductive AttrName where
  | DW_AT_name
  | DW_AT_linkage_name
  | DW_AT_type
  | DW_AT_location
  | otherAttr (n : Nat)
deriving Repr, DecidableEq

/-- The entry tags `dump_unit` dispatches on. -/
inductive Tag where
  | DW_TAG_subprogram
  | DW_TAG_variable
  | otherTag (n : Nat)
deriving Repr, DecidableEq

/-- One debugging-information entry as the handlers see it: a tag and an
ordered attribute list. -/
structure Entry where
  tag : Tag
  attrs : List (AttrName × AttrValue)
deriving Repr, DecidableEq

/-- The translation-unit context the decoders consult: the string table
behind `unit.attr_string` (offset-to-string). -/
structure UnitCtx where
  debug_str : List (Nat × String)
deriving Repr, DecidableEq

/-- Offset lookup in the string table. -/
def strLookup (off : Nat) : List (Nat × String) → Option String
  | [] => none
  | (o, s) :: rest => if o = off then some s else strLookup off rest

/-- `unit.attr_string(attr.value())`: succeeds on a direct string and on a
resolvable string-table reference, fails on every other encoding. -/
def attr_string (u : UnitCtx) (v : AttrValue) : Except WalkErr String :=
  match v with
  | .str s => .ok s
  | .debugStrRef off =>
    match strLookup off u.debug_str with
    | some s => .ok s
    | none => .error .StringResolve
  | _ => .error .StringResolve

/-- The debug rendering `format!` of a raw attribute value, used as the
fallback of `dw_at_name_handler`. -/
def debugRender : AttrValue → String
  | .unitRef off => "UnitRef(" ++ toString off ++ ")"
  | .debugStrRef off => "DebugStrRef(" ++ toString off ++ ")"
  | .str s => "String(" ++ s ++ ")"
  | .exprloc _ => "Exprloc"
  | .other raw => "Other(" ++ toString raw ++ ")"

/-- `dw_at_name_handler` of src/main.rs: resolve the value as a string;
on resolution failure fall back to the debug rendering of the raw value. -/
def dw_at_name_handler (u : UnitCtx) (v : AttrValue) : Except WalkErr String :=
  match attr_string u v with
  | .ok s => .ok s
  | .error _ => .ok (debugRender v)

/-- `dw_at_type_handler` of src/main.rs: a unit-local reference yields its
offset; any other encoding is `Err(gimli::Error::UnsupportedOffset)`. -/
def dw_at_type_handler (v : AttrValue) : Except WalkErr Nat :=
  match v with
  | .unitRef off => .ok off
  | _ => .error .UnsupportedOffset

/-- Modelled from the spec: the observable states of the external
expression machine after a run segment (section 4.3 / design note on
resume-driven evaluation): completed with a value stack, or suspended
waiting for the frame base, or suspended waiting for a register value. -/
inductive EvalOutcome where
  | Complete (stack : List Int)
  | RequiresFrameBase (off : Int) (rest : List Op) (stack : List Int)
  | RequiresRegister (r : Nat) (off : Int) (rest : List Op) (stack : List Int)
deriving Repr, DecidableEq

/-- Modelled from the spec: `expression.evaluation(...)` run until the
machine either completes or requests an external input; each step
consumes the next operation, so the program counter strictly advances. -/
def evalRun : List Op → List Int → EvalOutcome
  | [], st => .Complete st
  | .consts k :: rest, st => evalRun rest (k :: st)
  | .fbreg off :: rest, st => .RequiresFrameBase off rest st
  | .breg r off :: rest, st => .RequiresRegister r off rest st

/-- Modelled from the spec: `eval.resume_with_frame_base(fb)` answers a
pending frame-base request by pushing `fb + off` and running on. -/
def resume_with_frame_base (fb off : Int) (rest : List Op) (st : List Int) :
    EvalOutcome :=
  evalRun rest ((fb + off) :: st)

/-- Modelled from the spec: `eval.value_result()` coerced to a signed
64-bit integer — the integer on top of the value stack, if any. -/
def value_result (st : List Int) : Option Int :=
  st.head?

/-- Size of the suspended remainder of an outcome; the termination measure
of the resume loop. -/
def outSize : EvalOutcome → Nat
  | .Complete _ => 0
  | .RequiresFrameBase _ rest _ => rest.length + 1
  | .RequiresRegister _ _ rest _ => rest.length + 1

theorem outSize_evalRun_le (ops : List Op) (st : List Int) :
    outSize (evalRun ops st) ≤ ops.length := by
  induction ops generalizing st with
  | nil => simp [evalRun, outSize]
  | cons op rest ih =>
    cases op with
    | consts k => simpa [evalRun] using (ih (k :: st)).trans (by simp)
    | fbreg off => simp [evalRun, outSize]
    | breg r off => simp [evalRun, outSize]

/-- The resume loop of `dw_at_location_handler` (src/main.rs lines
321-352): on `Complete` read the value result; on `RequiresFrameBase`
resume with frame base 0; on any other request print and return `None`. -/
def locLoop (o : EvalOutcome) : Option Int :=
  match o with
  | .Complete st => value_result st
  | .RequiresFrameBase off rest st =>
    locLoop (resume_with_frame_base 0 off rest st)
  | .RequiresRegister _ _ _ _ => none
termination_by outSize o
decreasing_by
  simp only [resume_with_frame_base, outSize]
  exact Nat.lt_succ_of_le (outSize_evalRun_le _ _)

/-- The number of `resume_with_frame_base` calls the resume loop performs
on an outcome. -/
def resumeCount (o : EvalOutcome) : Nat :=
  match o with
  | .Complete _ => 0
  | .RequiresFrameBase off rest st =>
    resumeCount (resume_with_frame_base 0 off rest st) + 1
  | .RequiresRegister _ _ _ _ => 0
termination_by outSize o
decreasing_by
  simp only [resume_with_frame_base, outSize]
  exact Nat.lt_succ_of_le (outSize_evalRun_le _ _)

/-- Whether driving the machine (answering every frame-base request with
0) reaches a request for a register value. -/
def requestsRegister (o : EvalOutcome) : Bool :=
  match o with
  | .Complete _ => false
  | .RequiresFrameBase off rest st =>
    requestsRegister (resume_with_frame_base 0 off rest st)
  | .RequiresRegister _ _ _ _ => true
termination_by outSize o
decreasing_by
  simp only [resume_with_frame_base, outSize]
  exact Nat.lt_succ_of_le (outSize_evalRun_le _ _)

/-- `dw_at_location_handler` of src/main.rs: `attr.exprloc_value().unwrap()`
panics unless the attribute value carries an expression; with an
expression, evaluate it and drive the resume loop. -/
def dw_at_location_handler (v : AttrValue) : Except WalkErr (Option Int) :=
  match v with
  | .exprloc e => .ok (locLoop (evalRun e []))
  | _ => .error .unwrapNone

/-! ## The symbol table and the traversal state -/

/-- The symbol map: `HashMap<String, Subprogram>` embedded as an
association list with at-most-one binding per key. -/
abbrev SymMap := List (String × Subprogram)

/-- `map.get(k)` on the symbol map. -/
def mapLookup (k : String) : SymMap → Option Subprogram
  | [] => none
  | (k', v) :: rest => if k' = k then some v else mapLookup k rest

/-- `map.insert(k, v)`: replace the binding of `k` if present, otherwise
add one. -/
def mapInsert (k : String) (v : Subprogram) : SymMap → SymMap
  | [] => [(k, v)]
  | (k', v') :: rest =>
    if k' = k then (k, v) :: rest else (k', v') :: mapInsert k v rest

/-- `if let Some(subprogram) = map.get_mut(&k) { subprogram.variables.push(var) }`:
append `var` to the record bound to `k`, a no-op when `k` is absent. -/
def mapPushVar (k : String) (var : Variable) : SymMap → SymMap
  | [] => []
  | (k', sp) :: rest =>
    if k' = k then (k, { sp with vars := sp.vars ++ [var] }) :: rest
    else (k', sp) :: mapPushVar k var rest

/-- The process-wide mutable state of src/main.rs: the `SUBPROGRAM_MAP`
and `CURRENT_SUBPROGRAM` globals.  (`depth` is a local of `dump_unit`,
threaded separately.) -/
structure SymState where
  subprogram_map : SymMap
  current_subprogram : Option String
deriving Repr, DecidableEq

/-- Both globals at program start: empty map, no current subprogram. -/
def initSym : SymState := ⟨[], none⟩

/-- The attribute loop of `dw_tag_subprogram_handler`: fold the attribute
list over the `name`, `linkage_name` and `ret_type` accumulators
(initially `""`, `""`, `0`); `DW_AT_type` decoding errors propagate
(the `?` operator), all other attribute names are skipped. -/
def subprogramAttrs (u : UnitCtx) :
    List (AttrName × AttrValue) → String → String → Nat →
    Except WalkErr (String × String × Nat)
  | [], name, linkage_name, ret_type => .ok (name, linkage_name, ret_type)
  | (an, av) :: rest, name, linkage_name, ret_type =>
    match an with
    | .DW_AT_name =>
      match dw_at_name_handler u av with
      | .ok s => subprogramAttrs u rest s linkage_name ret_type
      | .error e => .error e
    | .DW_AT_linkage_name =>
      match dw_at_name_handler u av with
      | .ok s => subprogramAttrs u rest name s ret_type
      | .error e => .error e
    | .DW_AT_type =>
      match dw_at_type_handler av with
      | .ok t => subprogramAttrs u rest name linkage_name t
      | .error e => .error e
    | _ => subprogramAttrs u rest name linkage_name ret_type

/-- `dw_tag_subprogram_handler` of src/main.rs: decode the attributes,
insert a fresh `Subprogram` keyed by its linkage name (replacing any
prior entry with the same key), then set `CURRENT_SUBPROGRAM`. -/
def dw_tag_subprogram_handler (u : UnitCtx) (e : Entry) (s : SymState) :
    Except WalkErr SymState :=
  match subprogramAttrs u e.attrs "" "" 0 with
  | .error err => .error err
  | .ok (name, linkage_name, ret_type) =>
    .ok { subprogram_map :=
            mapInsert linkage_name ⟨name, linkage_name, ret_type, []⟩
              s.subprogram_map,
          current_subprogram := some linkage_name }

/-- The attribute loop of `dw_tag_variable_handler`: fold the attribute
list over the `name`, `var_type` and `location` accumulators (initially
`""`, `0`, `none`); `DW_AT_type` and `DW_AT_location` failures propagate. -/
def variableAttrs (u : UnitCtx) :
    List (AttrName × AttrValue) → String → Nat → Option Int →
    Except WalkErr (String × Nat × Option Int)
  | [], name, var_type, location => .ok (name, var_type, location)
  | (an, av) :: rest, name, var_type, location =>
    match an with
    | .DW_AT_name =>
      match dw_at_name_handler u av with
      | .ok s => variableAttrs u rest s var_type location
      | .error e => .error e
    | .DW_AT_type =>
      match dw_at_type_handler av with
      | .ok t => variableAttrs u rest name t location
      | .error e => .error e
    | .DW_AT_location =>
      match dw_at_location_handler av with
      | .ok l => variableAttrs u rest name var_type l
      | .error e => .error e
    | _ => variableAttrs u rest name var_type location

/-- Build a `Variable` from the decoded attribute triple. -/
def mkVariable : String × Nat × Option Int → Variable
  | (name, var_type, location) => ⟨name, var_type, location⟩

/-- `dw_tag_variable_handler` of src/main.rs: decode the attributes; if
`CURRENT_SUBPROGRAM` is unset (a global variable) return with no effect;
otherwise push the `Variable` onto the current subprogram's record. -/
def dw_tag_variable_handler (u : UnitCtx) (e : Entry) (s : SymState) :
    Except WalkErr SymState :=
  match variableAttrs u e.attrs "" 0 none with
  | .error err => .error err
  | .ok triple =>
    match s.current_subprogram with
    | none => .ok s
    | some linkage_name =>
      .ok { s with subprogram_map :=
              mapPushVar linkage_name (mkVariable triple) s.subprogram_map }

/-- The attribute loop of `dw_tag_default_handler`: decode every
attribute through `dw_at_name_handler` (for printing), propagating
errors (the `?` operator). -/
def defaultAttrs (u : UnitCtx) :
    List (AttrName × AttrValue) → Except WalkErr Unit
  | [] => .ok ()
  | (_, av) :: rest =>
    match dw_at_name_handler u av with
    | .ok _ => defaultAttrs u rest
    | .error e => .error e

/-- `dw_tag_default_handler` of src/main.rs: print every attribute; no
persisted effect. -/
def dw_tag_default_handler (u : UnitCtx) (e : Entry) (s : SymState) :
    Except WalkErr SymState :=
  match defaultAttrs u e.attrs with
  | .ok _ => .ok s
  | .error err => .error err

/-- The dispatch of `dump_unit` on one `(delta_depth, entry)` pair
(the depth update `depth += delta_depth` precedes the dispatch but the
handlers never read the depth). -/
def stepEntry (u : UnitCtx) (e : Entry) (s : SymState) :
    Except WalkErr SymState :=
  match e.tag with
  | .DW_TAG_subprogram => dw_tag_subprogram_handler u e s
  | .DW_TAG_variable => dw_tag_variable_handler u e s
  | .otherTag _ => dw_tag_default_handler u e s

/-- `dump_unit` of src/main.rs over an explicit entry stream: thread the
local `depth` (updated by each delta and otherwise unused) and the
global state through the entries; on the first handler error stop and
surface it, retaining the state accumulated so far (the globals keep
their partial contents, as in the source). -/
def dump_unit (u : UnitCtx) :
    List (Int × Entry) → Int → SymState → SymState × Option WalkErr
  | [], _, s => (s, none)
  | (delta_depth, e) :: rest, depth, s =>
    match stepEntry u e s with
    | .ok s' => dump_unit u rest (depth + delta_depth) s'
    | .error err => (s, some err)

/-- The number of bindings of key `k` in the symbol map. -/
def countKey (k : String) (m : SymMap) : Nat :=
  (m.filter fun p => decide (p.1 = k)).length

/-- The `Variable` records produced by the variable-tagged entries of a
segment, in encounter order. -/
def varsOf (u : UnitCtx) (es : List (Int × Entry)) : List Variable :=
  es.filterMap fun p =>
    match p.2.tag with
    | .DW_TAG_variable =>
      (variableAttrs u p.2.attrs "" 0 none).toOption.map mkVariable
    | _ => none

/-- The empty translation-unit context, used to instantiate theorems. -/
def emptyUnit : UnitCtx := ⟨[]⟩

/-- A concrete subprogram entry (name and linkage name "foo") used to
instantiate the walk theorems. -/
def subFoo : Entry :=
  ⟨.DW_TAG_subprogram, [(.DW_AT_name, .str "foo"),
    (.DW_AT_linkage_name, .str "foo")]⟩

/-- A concrete variable entry (name "x", type reference 5, no location)
used to instantiate the walk theorems. -/
def varX : Entry :=
  ⟨.DW_TAG_variable, [(.DW_AT_name, .str "x"), (.DW_AT_type, .unitRef 5)]⟩

/-- A second concrete subprogram entry sharing linkage name "foo"
(name "bar", return type reference 7). -/
def subFoo2 : Entry :=
  ⟨.DW_TAG_subprogram, [(.DW_AT_name, .str "bar"),
    (.DW_AT_linkage_name, .str "foo"), (.DW_AT_type, .unitRef 7)]⟩

/-- A concrete variable entry (name "y", type reference 9). -/
def varY : Entry :=
  ⟨.DW_TAG_variable, [(.DW_AT_name, .str "y"), (.DW_AT_type, .unitRef 9)]⟩

/-! ## Lemmas about the map operations -/

theorem mapLookup_mapInsert_self (k : String) (v : Subprogram) (m : SymMap) :
    mapLookup k (mapInsert k v m) = some v := by
  induction m with
  | nil => simp [mapInsert, mapLookup]
  | cons p rest ih =>
    obtain ⟨pk, pv⟩ := p
    by_cases h : pk = k
    · subst h
      simp [mapInsert, mapLookup]
    · simp [mapInsert, mapLookup, h, ih]

theorem mapLookup_mapInsert_ne (k k' : String) (v : Subprogram) (m : SymMap)
    (h : k' ≠ k) : mapLookup k (mapInsert k' v m) = mapLookup k m := by
  induction m with
  | nil => simp [mapInsert, mapLookup, h]
  | cons p rest ih =>
    obtain ⟨pk, pv⟩ := p
    by_cases hp : pk = k'
    · subst hp
      simp [mapInsert, mapLookup, h]
    · simp [mapInsert, mapLookup, hp, ih]

theorem mapLookup_mapPushVar_self (k : String) (var : Variable) (m : SymMap)
    (sp : Subprogram) (h : mapLookup k m = some sp) :
    mapLookup k (mapPushVar k var m) =
      some { sp with vars := sp.vars ++ [var] } := by
  induction m with
  | nil => simp [mapLookup] at h
  | cons p rest ih =>
    obtain ⟨pk, pv⟩ := p
    by_cases hp : pk = k
    · subst hp
      simp only [mapLookup, if_pos, Option.some.injEq] at h
      subst h
      simp [mapPushVar, mapLookup]
    · simp only [mapLookup, if_neg hp] at h
      simp [mapPushVar, mapLookup, hp, ih h]

theorem mapLookup_mapPushVar_ne (k k' : String) (var : Variable) (m : SymMap)
    (h : k' ≠ k) : mapLookup k (mapPushVar k' var m) = mapLookup k m := by
  induction m with
  | nil => simp [mapPushVar]
  | cons p rest ih =>
    obtain ⟨pk, pv⟩ := p
    by_cases hp : pk = k'
    · subst hp
      simp [mapPushVar, mapLookup, h]
    · simp [mapPushVar, mapLookup, hp, ih]

theorem mapPushVar_of_lookup_none (k : String) (var : Variable) (m : SymMap)
    (h : mapLookup k m = none) : mapPushVar k var m = m := by
  induction m with
  | nil => simp [mapPushVar]
  | cons p rest ih =>
    obtain ⟨pk, pv⟩ := p
    by_cases hp : pk = k
    · subst hp
      simp [mapLookup] at h
    · simp only [mapLookup, if_neg hp] at h
      simp [mapPushVar, hp, ih h]

theorem mapPushVar_keys (k : String) (var : Variable) (m : SymMap) :
    (mapPushVar k var m).map Prod.fst = m.map Prod.fst := by
  induction m with
  | nil => simp [mapPushVar]
  | cons p rest ih =>
    obtain ⟨pk, pv⟩ := p
    by_cases hp : pk = k
    · subst hp
      simp [mapPushVar]
    · simp [mapPushVar, hp, ih]

theorem mapLookup_isSome_mapPushVar (k k' : String) (var : Variable)
    (m : SymMap) :
    (mapLookup k (mapPushVar k' var m)).isSome = (mapLookup k m).isSome := by
  by_cases h : k' = k
  · subst h
    cases hm : mapLookup k' m with
    | none => simp [mapPushVar_of_lookup_none k' var m hm, hm]
    | some sp => simp [mapLookup_mapPushVar_self k' var m sp hm, hm]
  · simp [mapLookup_mapPushVar_ne k k' var m h]

theorem mapLookup_eq_none_of_not_mem_keys (k : String) (m : SymMap)
    (h : k ∉ m.map Prod.fst) : mapLookup k m = none := by
  induction m with
  | nil => simp [mapLookup]
  | cons p rest ih =>
    obtain ⟨pk, pv⟩ := p
    simp only [List.map_cons, List.mem_cons] at h
    push_neg at h
    have hne : ¬ pk = k := fun hc => h.1 hc.symm
    simp [mapLookup, hne, ih h.2]

theorem mem_keys_mapInsert (k k' : String) (v : Subprogram) (m : SymMap) :
    k ∈ (mapInsert k' v m).map Prod.fst ↔
      k = k' ∨ k ∈ m.map Prod.fst := by
  induction m with
  | nil => simp [mapInsert]
  | cons p rest ih =>
    obtain ⟨pk, pv⟩ := p
    by_cases hp : pk = k'
    · subst hp
      simp [mapInsert]
    · simp [mapInsert, hp, ih]
      tauto

theorem mapInsert_keys_nodup (k : String) (v : Subprogram) (m : SymMap)
    (h : (m.map Prod.fst).Nodup) :
    ((mapInsert k v m).map Prod.fst).Nodup := by
  induction m with
  | nil => simp [mapInsert]
  | cons p rest ih =>
    obtain ⟨pk, pv⟩ := p
    simp only [List.map_cons, List.nodup_cons] at h
    by_cases hp : pk = k
    · subst hp
      simpa [mapInsert] using h
    · simp only [mapInsert, if_neg hp, List.map_cons, List.nodup_cons]
      refine ⟨?_, ih h.2⟩
      intro hc
      rcases (mem_keys_mapInsert pk k v rest).1 hc with h1 | h1
      · exact hp h1
      · exact h.1 h1

theorem countKey_eq_zero_of_not_mem (k : String) (m : SymMap)
    (h : k ∉ m.map Prod.fst) : countKey k m = 0 := by
  induction m with
  | nil => simp [countKey]
  | cons p rest ih =>
    obtain ⟨pk, pv⟩ := p
    simp only [List.map_cons, List.mem_cons] at h
    push_neg at h
    have hne : ¬ pk = k := fun hc => h.1 hc.symm
    have := ih h.2
    simp only [countKey, List.filter_cons] at this ⊢
    simpa [hne] using this

theorem countKey_eq_one (k : String) (m : SymMap) (sp : Subprogram)
    (hn : (m.map Prod.fst).Nodup) (h : mapLookup k m = some sp) :
    countKey k m = 1 := by
  induction m with
  | nil => simp [mapLookup] at h
  | cons p rest ih =>
    obtain ⟨pk, pv⟩ := p
    simp only [List.map_cons, List.nodup_cons] at hn
    by_cases hp : pk = k
    · subst hp
      have h0 := countKey_eq_zero_of_not_mem pk rest hn.1
      simp only [countKey, List.filter_cons] at h0 ⊢
      simpa using h0
    · simp only [mapLookup, if_neg hp] at h
      have := ih hn.2 h
      simp only [countKey, List.filter_cons] at this ⊢
      simpa [hp] using this

/-! ## Lemmas about the walk -/

theorem dw_at_name_handler_ne_error (u : UnitCtx) (v : AttrValue)
    (e : WalkErr) : dw_at_name_handler u v ≠ .error e := by
  unfold dw_at_name_handler
  cases attr_string u v <;> simp

theorem defaultAttrs_ok (u : UnitCtx) (attrs : List (AttrName × AttrValue)) :
    defaultAttrs u attrs = .ok () := by
  induction attrs with
  | nil => rfl
  | cons p rest ih =>
    obtain ⟨an, av⟩ := p
    cases hnm : dw_at_name_handler u av with
    | ok s => simp [defaultAttrs, hnm, ih]
    | error e => exact absurd hnm (dw_at_name_handler_ne_error u av e)

theorem stepEntry_other (u : UnitCtx) (e : Entry) (s : SymState) (n : Nat)
    (h : e.tag = .otherTag n) : stepEntry u e s = .ok s := by
  simp [stepEntry, h, dw_tag_default_handler, defaultAttrs_ok]

theorem stepEntry_subprogram (u : UnitCtx) (e : Entry) (s : SymState)
    (nm L : String) (rt : Nat)
    (ht : e.tag = .DW_TAG_subprogram)
    (ha : subprogramAttrs u e.attrs "" "" 0 = .ok (nm, L, rt)) :
    stepEntry u e s =
      .ok ⟨mapInsert L ⟨nm, L, rt, []⟩ s.subprogram_map, some L⟩ := by
  simp [stepEntry, ht, dw_tag_subprogram_handler, ha]

theorem stepEntry_variable_none (u : UnitCtx) (e : Entry) (s : SymState)
    (t : String × Nat × Option Int)
    (ht : e.tag = .DW_TAG_variable)
    (ha : variableAttrs u e.attrs "" 0 none = .ok t)
    (hc : s.current_subprogram = none) :
    stepEntry u e s = .ok s := by
  simp [stepEntry, ht, dw_tag_variable_handler, ha, hc]

theorem stepEntry_variable_some (u : UnitCtx) (e : Entry) (s : SymState)
    (t : String × Nat × Option Int) (L : String)
    (ht : e.tag = .DW_TAG_variable)
    (ha : variableAttrs u e.attrs "" 0 none = .ok t)
    (hc : s.current_subprogram = some L) :
    stepEntry u e s =
      .ok { s with subprogram_map :=
              mapPushVar L (mkVariable t) s.subprogram_map } := by
  simp [stepEntry, ht, dw_tag_variable_handler, ha, hc]

/-- Changing the starting depth changes nothing: the handlers never read
the depth (`dump_unit` only prints it). -/
theorem dump_unit_depth (u : UnitCtx) (es : List (Int × Entry))
    (d d' : Int) (s : SymState) :
    dump_unit u es d s = dump_unit u es d' s := by
  induction es generalizing d d' s with
  | nil => rfl
  | cons p rest ih =>
    obtain ⟨delta, e⟩ := p
    cases h : stepEntry u e s with
    | ok s1 =>
      simp only [dump_unit, h]
      exact ih _ _ s1
    | error err => simp only [dump_unit, h]

theorem dump_unit_append_ok (u : UnitCtx) (xs ys : List (Int × Entry))
    (d : Int) (s s' : SymState)
    (h : dump_unit u xs d s = (s', none)) :
    dump_unit u (xs ++ ys) d s = dump_unit u ys d s' := by
  induction xs generalizing d s with
  | nil =>
    injection h with h1 _
    subst h1
    rfl
  | cons p rest ih =>
    obtain ⟨delta, e⟩ := p
    cases hs : stepEntry u e s with
    | ok s1 =>
      simp only [dump_unit, hs] at h
      simp only [List.cons_append, dump_unit, hs]
      show dump_unit u (rest ++ ys) (d + delta) s1 = dump_unit u ys d s'
      rw [ih _ _ h]
      exact dump_unit_depth u ys _ d s'
    | error err =>
      simp only [dump_unit, hs] at h
      exact absurd h (by simp)

theorem dump_unit_append_err (u : UnitCtx) (xs ys : List (Int × Entry))
    (d : Int) (s s' : SymState) (err : WalkErr)
    (h : dump_unit u xs d s = (s', some err)) :
    dump_unit u (xs ++ ys) d s = (s', some err) := by
  induction xs generalizing d s with
  | nil =>
    injection h with _ h2
    exact absurd h2 (by simp)
  | cons p rest ih =>
    obtain ⟨delta, e⟩ := p
    cases hs : stepEntry u e s with
    | ok s1 =>
      simp only [dump_unit, hs] at h
      simp only [List.cons_append, dump_unit, hs]
      show dump_unit u (rest ++ ys) (d + delta) s1 = (s', some err)
      exact ih _ _ h
    | error e2 =>
      simp only [dump_unit, hs] at h
      simp only [List.cons_append, dump_unit, hs]
      exact h

/-- Walking a segment that contains no subprogram entry leaves the
current-subprogram cursor unchanged and appends exactly the segment's
variables, in order, to the record the cursor points at. -/
theorem dump_unit_no_sub (u : UnitCtx) (es : List (Int × Entry)) :
    (∀ p ∈ es, p.2.tag ≠ Tag.DW_TAG_subprogram) →
    ∀ d s s', dump_unit u es d s = (s', none) →
      s'.current_subprogram = s.current_subprogram ∧
      ∀ L sp, s.current_subprogram = some L →
        mapLookup L s.subprogram_map = some sp →
        mapLookup L s'.subprogram_map =
          some { sp with vars := sp.vars ++ varsOf u es } := by
  induction es with
  | nil =>
    intro _ d s s' h
    injection h with h1 _
    subst h1
    simp [varsOf]
  | cons p rest ih =>
    intro hns d s s' h
    obtain ⟨delta, e⟩ := p
    have hne : e.tag ≠ Tag.DW_TAG_subprogram :=
      hns (delta, e) (List.mem_cons_self _ _)
    have hrest : ∀ q ∈ rest, q.2.tag ≠ Tag.DW_TAG_subprogram :=
      fun q hq => hns q (List.mem_cons_of_mem _ hq)
    cases hs : stepEntry u e s with
    | error err =>
      simp only [dump_unit, hs] at h
      exact absurd h (by simp)
    | ok s1 =>
      simp only [dump_unit, hs] at h
      cases ht : e.tag with
      | DW_TAG_subprogram => exact absurd ht hne
      | DW_TAG_variable =>
        cases ha : variableAttrs u e.attrs "" 0 none with
        | error err =>
          rw [stepEntry, ht] at hs
          simp only [dw_tag_variable_handler, ha] at hs
          exact absurd hs (by simp)
        | ok t =>
          cases hc : s.current_subprogram with
          | none =>
            rw [stepEntry_variable_none u e s t ht ha hc] at hs
            injection hs with h1
            subst h1
            obtain ⟨ih1, _⟩ := ih hrest _ _ _ h
            refine ⟨by rw [ih1, hc], ?_⟩
            intro L sp hL
            exact absurd hL (by simp)
          | some L0 =>
            rw [stepEntry_variable_some u e s t L0 ht ha hc] at hs
            injection hs with h1
            subst h1
            obtain ⟨ih1, ih2⟩ := ih hrest _ _ _ h
            constructor
            · rw [ih1]
              exact hc
            · intro L sp hL hsp
              injection hL with hL0
              subst hL0
              have hpush := mapLookup_mapPushVar_self L0 (mkVariable t)
                s.subprogram_map sp hsp
              have := ih2 L0 { sp with vars := sp.vars ++ [mkVariable t] }
                hc hpush
              rw [this]
              simp [varsOf, List.filterMap_cons, ht, ha, Except.toOption]
      | otherTag n =>
        rw [stepEntry_other u e s n ht] at hs
        injection hs with h1
        subst h1
        obtain ⟨ih1, ih2⟩ := ih hrest _ _ _ h
        refine ⟨ih1, ?_⟩
        intro L sp hL hsp
        rw [ih2 L sp hL hsp]
        simp [varsOf, List.filterMap_cons, ht]

/-! ## Invariants preserved by the walk -/

/-- One successful step preserves distinctness of the map's keys. -/
theorem stepEntry_keys_nodup (u : UnitCtx) (e : Entry) (s s1 : SymState)
    (hs : stepEntry u e s = .ok s1)
    (h : (s.subprogram_map.map Prod.fst).Nodup) :
    (s1.subprogram_map.map Prod.fst).Nodup := by
  cases ht : e.tag with
  | DW_TAG_subprogram =>
    cases ha : subprogramAttrs u e.attrs "" "" 0 with
    | error err =>
      rw [stepEntry, ht] at hs
      simp only [dw_tag_subprogram_handler, ha] at hs
      exact absurd hs (by simp)
    | ok t =>
      obtain ⟨nm, L, rt⟩ := t
      rw [stepEntry_subprogram u e s nm L rt ht ha] at hs
      injection hs with h1
      rw [← h1]
      exact mapInsert_keys_nodup L ⟨nm, L, rt, []⟩ s.subprogram_map h
  | DW_TAG_variable =>
    cases ha : variableAttrs u e.attrs "" 0 none with
    | error err =>
      rw [stepEntry, ht] at hs
      simp only [dw_tag_variable_handler, ha] at hs
      exact absurd hs (by simp)
    | ok t =>
      cases hc : s.current_subprogram with
      | none =>
        rw [stepEntry_variable_none u e s t ht ha hc] at hs
        injection hs with h1
        rw [← h1]
        exact h
      | some L =>
        rw [stepEntry_variable_some u e s t L ht ha hc] at hs
        injection hs with h1
        rw [← h1]
        simpa [mapPushVar_keys] using h
  | otherTag n =>
    rw [stepEntry_other u e s n ht] at hs
    injection hs with h1
    rw [← h1]
    exact h

/-- Distinctness of the map's keys is a walk invariant, successful or
not (the state on error is the last one reached). -/
theorem dump_unit_keys_nodup (u : UnitCtx) (es : List (Int × Entry)) :
    ∀ d s, (s.subprogram_map.map Prod.fst).Nodup →
      ((dump_unit u es d s).1.subprogram_map.map Prod.fst).Nodup := by
  induction es with
  | nil => intro d s h; exact h
  | cons p rest ih =>
    intro d s h
    obtain ⟨delta, e⟩ := p
    cases hs : stepEntry u e s with
    | error err => simpa only [dump_unit, hs] using h
    | ok s1 =>
      simp only [dump_unit, hs]
      exact ih _ s1 (stepEntry_keys_nodup u e s s1 hs h)

/-- One successful step preserves the invariant that the cursor, when
set, names a key of the map. -/
theorem stepEntry_current_in_map (u : UnitCtx) (e : Entry) (s s1 : SymState)
    (hs : stepEntry u e s = .ok s1)
    (h : ∀ k, s.current_subprogram = some k →
      (mapLookup k s.subprogram_map).isSome) :
    ∀ k, s1.current_subprogram = some k →
      (mapLookup k s1.subprogram_map).isSome := by
  cases ht : e.tag with
  | DW_TAG_subprogram =>
    cases ha : subprogramAttrs u e.attrs "" "" 0 with
    | error err =>
      rw [stepEntry, ht] at hs
      simp only [dw_tag_subprogram_handler, ha] at hs
      exact absurd hs (by simp)
    | ok t =>
      obtain ⟨nm, L, rt⟩ := t
      rw [stepEntry_subprogram u e s nm L rt ht ha] at hs
      injection hs with h1
      rw [← h1]
      intro k hk
      injection hk with hk1
      subst hk1
      simp [mapLookup_mapInsert_self]
  | DW_TAG_variable =>
    cases ha : variableAttrs u e.attrs "" 0 none with
    | error err =>
      rw [stepEntry, ht] at hs
      simp only [dw_tag_variable_handler, ha] at hs
      exact absurd hs (by simp)
    | ok t =>
      cases hc : s.current_subprogram with
      | none =>
        rw [stepEntry_variable_none u e s t ht ha hc] at hs
        injection hs with h1
        rw [← h1]
        exact h
      | some L =>
        rw [stepEntry_variable_some u e s t L ht ha hc] at hs
        injection hs with h1
        rw [← h1]
        intro k hk
        rw [mapLookup_isSome_mapPushVar]
        exact h k hk
  | otherTag n =>
    rw [stepEntry_other u e s n ht] at hs
    injection hs with h1
    rw [← h1]
    exact h

/-- The cursor-names-a-key invariant holds of every state the walk
reaches. -/
theorem dump_unit_current_in_map (u : UnitCtx) (es : List (Int × Entry)) :
    ∀ d s,
      (∀ k, s.current_subprogram = some k →
        (mapLookup k s.subprogram_map).isSome) →
      ∀ k, (dump_unit u es d s).1.current_subprogram = some k →
        (mapLookup k (dump_unit u es d s).1.subprogram_map).isSome := by
  induction es with
  | nil => intro d s h; exact h
  | cons p rest ih =>
    intro d s h
    obtain ⟨delta, e⟩ := p
    cases hs : stepEntry u e s with
    | error err => simpa only [dump_unit, hs] using h
    | ok s1 =>
      simp only [dump_unit, hs]
      exact ih _ s1 (stepEntry_current_in_map u e s s1 hs h)

/-- A successful step on a non-subprogram entry leaves the cursor as it
was. -/
theorem stepEntry_current_of_not_sub (u : UnitCtx) (e : Entry)
    (s s1 : SymState) (hs : stepEntry u e s = .ok s1)
    (ht : e.tag ≠ Tag.DW_TAG_subprogram) :
    s1.current_subprogram = s.current_subprogram := by
  cases htag : e.tag with
  | DW_TAG_subprogram => exact absurd htag ht
  | DW_TAG_variable =>
    cases ha : variableAttrs u e.attrs "" 0 none with
    | error err =>
      rw [stepEntry, htag] at hs
      simp only [dw_tag_variable_handler, ha] at hs
      exact absurd hs (by simp)
    | ok t =>
      cases hc : s.current_subprogram with
      | none =>
        rw [stepEntry_variable_none u e s t htag ha hc] at hs
        injection hs with h1
        rw [← h1]
        exact hc
      | some L =>
        rw [stepEntry_variable_some u e s t L htag ha hc] at hs
        injection hs with h1
        rw [← h1]
        exact hc
  | otherTag n =>
    rw [stepEntry_other u e s n htag] at hs
    injection hs with h1
    rw [← h1]

/-- Walking a subprogram-free segment from a state with no open
subprogram never opens one, successful or not. -/
theorem dump_unit_current_none (u : UnitCtx) (es : List (Int × Entry))
    (hns : ∀ p ∈ es, p.2.tag ≠ Tag.DW_TAG_subprogram) :
    ∀ d s, s.current_subprogram = none →
      (dump_unit u es d s).1.current_subprogram = none := by
  induction es with
  | nil => intro d s h; exact h
  | cons p rest ih =>
    intro d s h
    obtain ⟨delta, e⟩ := p
    have hne : e.tag ≠ Tag.DW_TAG_subprogram :=
      hns (delta, e) (List.mem_cons_self _ _)
    have hrest : ∀ q ∈ rest, q.2.tag ≠ Tag.DW_TAG_subprogram :=
      fun q hq => hns q (List.mem_cons_of_mem _ hq)
    cases hs : stepEntry u e s with
    | error err => simpa only [dump_unit, hs] using h
    | ok s1 =>
      simp only [dump_unit, hs]
      exact ih hrest _ s1
        ((stepEntry_current_of_not_sub u e s s1 hs hne).trans h)

/-! ## Lemmas about the location evaluator -/

/-- The resume loop performs at most as many iterations as the
outstanding part of the expression is long. -/
theorem resumeCount_le_outSize (o : EvalOutcome) :
    resumeCount o ≤ outSize o := by
  have H : ∀ n o, outSize o ≤ n → resumeCount o ≤ outSize o := by
    intro n
    induction n with
    | zero =>
      intro o ho
      cases o with
      | Complete st => simp [resumeCount]
      | RequiresFrameBase off rest st => simp [outSize] at ho
      | RequiresRegister r off rest st => simp [outSize] at ho
    | succ n ihn =>
      intro o ho
      cases o with
      | Complete st => simp [resumeCount]
      | RequiresFrameBase off rest st =>
        have hle : outSize (resume_with_frame_base 0 off rest st) ≤
            rest.length := outSize_evalRun_le rest ((0 + off) :: st)
        simp only [outSize] at ho
        have h1 : resumeCount (resume_with_frame_base 0 off rest st) ≤
            outSize (resume_with_frame_base 0 off rest st) :=
          ihn _ (hle.trans (by omega))
        simp only [resumeCount, outSize]
        omega
      | RequiresRegister r off rest st => simp [resumeCount]
  exact H (outSize o) o le_rfl

/-- Driving the machine to a register request makes the resume loop
return `none` (the wildcard arm of the Rust loop). -/
theorem locLoop_none_of_requestsRegister (o : EvalOutcome)
    (h : requestsRegister o = true) : locLoop o = none := by
  have H : ∀ n o, outSize o ≤ n → requestsRegister o = true →
      locLoop o = none := by
    intro n
    induction n with
    | zero =>
      intro o ho hr
      cases o with
      | Complete st => simp [requestsRegister] at hr
      | RequiresFrameBase off rest st => simp [outSize] at ho
      | RequiresRegister r off rest st => simp [locLoop]
    | succ n ihn =>
      intro o ho hr
      cases o with
      | Complete st => simp [requestsRegister] at hr
      | RequiresFrameBase off rest st =>
        have hle : outSize (resume_with_frame_base 0 off rest st) ≤
            rest.length := outSize_evalRun_le rest ((0 + off) :: st)
        simp only [outSize] at ho
        simp only [requestsRegister] at hr
        simp only [locLoop]
        exact ihn _ (hle.trans (by omega)) hr
      | RequiresRegister r off rest st => simp [locLoop]
  exact H (outSize o) o le_rfl h

/-- A lone frame-base-relative constant evaluates, with frame base 0,
to exactly that constant. -/
theorem locLoop_fbreg (K : Int) :
    locLoop (evalRun [Op.fbreg K] []) = some K := by
  simp [evalRun, locLoop, resume_with_frame_base, value_result]

/-! ## The claims -/

/-- C3: a location attribute whose expression consists solely of pushing
a constant K marked frame-base-relative evaluates (the evaluator supplies
frame base 0) to `Some K`; an expression whose drive reaches a request
for an external input other than the frame base (a register value)
yields `None`. -/
theorem c3_location_evaluation :
    (∀ K : Int, dw_at_location_handler (AttrValue.exprloc [Op.fbreg K]) =
      .ok (some K)) ∧
    (∀ e : List Op, requestsRegister (evalRun e []) = true →
      dw_at_location_handler (AttrValue.exprloc e) = .ok none) := by
  constructor
  · intro K
    simp [dw_at_location_handler, locLoop_fbreg]
  · intro e hr
    simp [dw_at_location_handler, locLoop_none_of_requestsRegister _ hr]

/-- C3 witness: the frame-base offset -8 comes back as `some (-8)`, and
the register-relative expression `breg 6 0` comes back as `none`. -/
theorem c3_location_evaluation_witness :
    dw_at_location_handler (AttrValue.exprloc [Op.fbreg (-8)]) =
      .ok (some (-8)) ∧
    requestsRegister (evalRun [Op.breg 6 0] []) = true ∧
    dw_at_location_handler (AttrValue.exprloc [Op.breg 6 0]) = .ok none :=
  ⟨c3_location_evaluation.1 (-8),
   by simp [evalRun, requestsRegister],
   c3_location_evaluation.2 [Op.breg 6 0]
     (by simp [evalRun, requestsRegister])⟩

/-- C4 counterexample: a DW_AT_type attribute whose value is not a
unit-local reference is not handled locally by a fallback or skip —
the walk over the translation unit aborts with `UnsupportedOffset`,
refuting the claim. -/
theorem c4_type_error_aborts_counterexample :
    dump_unit ⟨[]⟩
      [(0, ⟨Tag.DW_TAG_variable, [(AttrName.DW_AT_type, AttrValue.str "x")]⟩)]
      0 initSym = (initSym, some WalkErr.UnsupportedOffset) := rfl

/-- C4 amended: a DW_AT_type attribute of any non-reference encoding
makes `dw_at_type_handler` return `UnsupportedOffset`; the subprogram
and variable handlers propagate that error (the `?` operator), so the
walk aborts on the entry carrying it.  Only name decoding falls back
locally. -/
theorem c4_type_error_propagates_amended (u : UnitCtx) (s : SymState)
    (v : AttrValue) (hv : ∀ off, v ≠ AttrValue.unitRef off) :
    dw_at_type_handler v = .error WalkErr.UnsupportedOffset ∧
    stepEntry u ⟨Tag.DW_TAG_variable, [(AttrName.DW_AT_type, v)]⟩ s =
      .error WalkErr.UnsupportedOffset ∧
    stepEntry u ⟨Tag.DW_TAG_subprogram, [(AttrName.DW_AT_type, v)]⟩ s =
      .error WalkErr.UnsupportedOffset ∧
    ∀ es d, dump_unit u ((0, ⟨Tag.DW_TAG_variable,
        [(AttrName.DW_AT_type, v)]⟩) :: es) d s =
      (s, some WalkErr.UnsupportedOffset) := by
  have h1 : dw_at_type_handler v = .error WalkErr.UnsupportedOffset := by
    cases v with
    | unitRef off => exact absurd rfl (hv off)
    | _ => rfl
  have h2 : stepEntry u ⟨Tag.DW_TAG_variable,
      [(AttrName.DW_AT_type, v)]⟩ s = .error WalkErr.UnsupportedOffset := by
    simp [stepEntry, dw_tag_variable_handler, variableAttrs, h1]
  refine ⟨h1, h2, ?_, ?_⟩
  · simp [stepEntry, dw_tag_subprogram_handler, subprogramAttrs, h1]
  · intro es d
    simp [dump_unit, h2]

/-- C4 amended witness: at the string-valued type attribute the decode
error is `UnsupportedOffset` and the walk aborts. -/
theorem c4_type_error_propagates_witness :
    (∀ off, AttrValue.str "x" ≠ AttrValue.unitRef off) ∧
    dw_at_type_handler (AttrValue.str "x") =
      .error WalkErr.UnsupportedOffset ∧
    dump_unit ⟨[]⟩ ((0, ⟨Tag.DW_TAG_variable,
        [(AttrName.DW_AT_type, AttrValue.str "x")]⟩) :: []) 0 initSym =
      (initSym, some WalkErr.UnsupportedOffset) :=
  ⟨fun off => by simp,
   (c4_type_error_propagates_amended ⟨[]⟩ initSym (AttrValue.str "x")
     (fun off => by simp)).1,
   (c4_type_error_propagates_amended ⟨[]⟩ initSym (AttrValue.str "x")
     (fun off => by simp)).2.2.2 [] 0⟩

/-- C5: name decoding always returns some string, never an error: on
successful string resolution it returns the resolved string, on failure
the best-effort debug rendering of the raw value. -/
theorem c5_decoder_fallback (u : UnitCtx) (v : AttrValue) :
    (∃ s, dw_at_name_handler u v = .ok s) ∧
    (∀ s, attr_string u v = .ok s → dw_at_name_handler u v = .ok s) ∧
    (∀ err, attr_string u v = .error err →
      dw_at_name_handler u v = .ok (debugRender v)) := by
  refine ⟨?_, ?_, ?_⟩
  · cases h : attr_string u v with
    | ok s => exact ⟨s, by simp [dw_at_name_handler, h]⟩
    | error e => exact ⟨debugRender v, by simp [dw_at_name_handler, h]⟩
  · intro s h
    simp [dw_at_name_handler, h]
  · intro err h
    simp [dw_at_name_handler, h]

/-- C5 witness: a resolvable string reference decodes to the resolved
string; an unresolvable one decodes to the debug rendering, still `ok`. -/
theorem c5_decoder_fallback_witness :
    (∃ s, dw_at_name_handler ⟨[(0, "abc")]⟩ (AttrValue.debugStrRef 0) =
      .ok s) ∧
    (attr_string ⟨[(0, "abc")]⟩ (AttrValue.debugStrRef 0) = .ok "abc" ∧
      dw_at_name_handler ⟨[(0, "abc")]⟩ (AttrValue.debugStrRef 0) =
        .ok "abc") ∧
    (attr_string ⟨[(0, "abc")]⟩ (AttrValue.debugStrRef 1) =
        .error WalkErr.StringResolve ∧
      dw_at_name_handler ⟨[(0, "abc")]⟩ (AttrValue.debugStrRef 1) =
        .ok (debugRender (AttrValue.debugStrRef 1))) :=
  ⟨(c5_decoder_fallback ⟨[(0, "abc")]⟩ (AttrValue.debugStrRef 0)).1,
   ⟨rfl, (c5_decoder_fallback ⟨[(0, "abc")]⟩
     (AttrValue.debugStrRef 0)).2.1 "abc" rfl⟩,
   ⟨rfl, (c5_decoder_fallback ⟨[(0, "abc")]⟩
     (AttrValue.debugStrRef 1)).2.2 WalkErr.StringResolve rfl⟩⟩

/-- C6 counterexample: a location attribute whose value is not an
expression form does not decode to "none" — the handler fails (the
source unwraps `None`, a panic), refuting the claim. -/
theorem c6_nonexpr_location_counterexample :
    dw_at_location_handler (AttrValue.other 5) =
      .error WalkErr.unwrapNone ∧
    dw_at_location_handler (AttrValue.other 5) ≠ .ok none :=
  ⟨rfl, by simp [dw_at_location_handler]⟩

/-- C6 amended: location decoding delegates to the evaluator exactly
when the attribute carries an expression; an absent location attribute
leaves the variable's location `none`; but a location attribute of a
non-expression form makes the handler fail (the unwrap panic) instead
of returning `none`. -/
theorem c6_location_decode_amended (u : UnitCtx) :
    (∀ e, dw_at_location_handler (AttrValue.exprloc e) =
      .ok (locLoop (evalRun e []))) ∧
    (∀ attrs nm vt res,
      (∀ p ∈ attrs, p.1 ≠ AttrName.DW_AT_location) →
      variableAttrs u attrs nm vt none = .ok res → res.2.2 = none) ∧
    (∀ v, (∀ e, v ≠ AttrValue.exprloc e) →
      dw_at_location_handler v = .error WalkErr.unwrapNone) := by
  refine ⟨fun e => rfl, ?_, ?_⟩
  · intro attrs
    induction attrs with
    | nil =>
      intro nm vt res _ h
      injection h with h1
      rw [← h1]
    | cons p rest ih =>
      intro nm vt res hno h
      obtain ⟨an, av⟩ := p
      have hrest : ∀ q ∈ rest, q.1 ≠ AttrName.DW_AT_location :=
        fun q hq => hno q (List.mem_cons_of_mem _ hq)
      cases an with
      | DW_AT_name =>
        cases hnm : dw_at_name_handler u av with
        | ok s2 =>
          simp only [variableAttrs, hnm] at h
          exact ih _ _ _ hrest h
        | error e2 => exact absurd hnm (dw_at_name_handler_ne_error u av e2)
      | DW_AT_linkage_name =>
        simp only [variableAttrs] at h
        exact ih _ _ _ hrest h
      | DW_AT_type =>
        cases hty : dw_at_type_handler av with
        | ok t =>
          simp only [variableAttrs, hty] at h
          exact ih _ _ _ hrest h
        | error e2 =>
          simp only [variableAttrs, hty] at h
          exact absurd h (by simp)
      | DW_AT_location =>
        exact absurd rfl (hno (AttrName.DW_AT_location, av)
          (List.mem_cons_self _ _))
      | otherAttr n =>
        simp only [variableAttrs] at h
        exact ih _ _ _ hrest h
  · intro v hv
    cases v with
    | exprloc e => exact absurd rfl (hv e)
    | _ => rfl

/-- C6 amended witness: an expression attribute delegates; a variable
entry without a location attribute decodes to location `none`; a
numeric location value fails with the unwrap panic. -/
theorem c6_location_decode_witness :
    dw_at_location_handler (AttrValue.exprloc [Op.fbreg 4]) =
      .ok (locLoop (evalRun [Op.fbreg 4] [])) ∧
    variableAttrs ⟨[]⟩ [(AttrName.DW_AT_name, AttrValue.str "x")] "" 0 none =
      .ok ("x", 0, none) ∧
    (("x", 0, none) : String × Nat × Option Int).2.2 = none ∧
    dw_at_location_handler (AttrValue.other 5) =
      .error WalkErr.unwrapNone :=
  ⟨(c6_location_decode_amended ⟨[]⟩).1 [Op.fbreg 4],
   rfl,
   (c6_location_decode_amended ⟨[]⟩).2.1
     [(AttrName.DW_AT_name, AttrValue.str "x")] "" 0 ("x", 0, none)
     (by simp) rfl,
   (c6_location_decode_amended ⟨[]⟩).2.2 (AttrValue.other 5)
     (fun e => by simp)⟩

/-- C7 counterexample: the resume loop imposes no fixed bound — an
expression issuing twelve identical frame-base requests has all twelve
answered (twelve resume iterations) and still returns the computed
offset, not the "none after a small fixed bound" the claim requires. -/
theorem c7_unbounded_resume_counterexample :
    resumeCount (evalRun [Op.fbreg 0, Op.fbreg 0, Op.fbreg 0, Op.fbreg 0,
      Op.fbreg 0, Op.fbreg 0, Op.fbreg 0, Op.fbreg 0, Op.fbreg 0,
      Op.fbreg 0, Op.fbreg 0, Op.fbreg 0] []) = 12 ∧
    dw_at_location_handler (AttrValue.exprloc [Op.fbreg 0, Op.fbreg 0,
      Op.fbreg 0, Op.fbreg 0, Op.fbreg 0, Op.fbreg 0, Op.fbreg 0,
      Op.fbreg 0, Op.fbreg 0, Op.fbreg 0, Op.fbreg 0, Op.fbreg 0]) =
      .ok (some 0) := by
  constructor
  · simp [evalRun, resumeCount, resume_with_frame_base]
  · simp [dw_at_location_handler, evalRun, locLoop,
      resume_with_frame_base, value_result]

/-- C7 amended: the resume loop always terminates because every resume
step strictly advances the machine (it consumes at least one
operation); the number of resume iterations is bounded by the length of
the expression.  No fixed cutoff exists in the code. -/
theorem c7_resume_termination_amended (e : List Op) :
    resumeCount (evalRun e []) ≤ e.length :=
  (resumeCount_le_outSize _).trans (outSize_evalRun_le e [])

/-- C1: every variable entry encountered strictly after a subprogram
entry and before the next subprogram entry (depth-first order) is
appended, in encounter order, to that subprogram's record in the symbol
table. -/
theorem c1_attribution (u : UnitCtx) (pre mid : List (Int × Entry))
    (delta : Int) (e : Entry) (nm L : String) (rt : Nat) (s' : SymState)
    (ht : e.tag = Tag.DW_TAG_subprogram)
    (ha : subprogramAttrs u e.attrs "" "" 0 = .ok (nm, L, rt))
    (hmid : ∀ p ∈ mid, p.2.tag ≠ Tag.DW_TAG_subprogram)
    (hw : dump_unit u (pre ++ (delta, e) :: mid) 0 initSym = (s', none)) :
    s'.current_subprogram = some L ∧
    mapLookup L s'.subprogram_map = some ⟨nm, L, rt, varsOf u mid⟩ := by
  cases h0 : dump_unit u pre 0 initSym with
  | mk s0 err0 =>
    cases err0 with
    | some err =>
      rw [dump_unit_append_err u pre _ 0 initSym s0 err h0] at hw
      exact absurd hw (by simp)
    | none =>
      rw [dump_unit_append_ok u pre _ 0 initSym s0 h0] at hw
      have hstep := stepEntry_subprogram u e s0 nm L rt ht ha
      simp only [dump_unit, hstep] at hw
      obtain ⟨hcur, hlook⟩ := dump_unit_no_sub u mid hmid _ _ _ hw
      refine ⟨hcur, ?_⟩
      have := hlook L ⟨nm, L, rt, []⟩ rfl
        (mapLookup_mapInsert_self L ⟨nm, L, rt, []⟩ s0.subprogram_map)
      simpa using this

/-- C1 witness: the subprogram "foo" followed by the variable "x" ends
with "x" attached to the record of "foo". -/
theorem c1_attribution_witness :
    dump_unit emptyUnit ([] ++ (0, subFoo) :: [(1, varX)]) 0 initSym =
      (⟨[("foo", ⟨"foo", "foo", 0, [⟨"x", 5, none⟩]⟩)], some "foo"⟩,
        none) ∧
    ((⟨[("foo", ⟨"foo", "foo", 0, [⟨"x", 5, none⟩]⟩)], some "foo"⟩ :
        SymState).current_subprogram = some "foo" ∧
      mapLookup "foo" [("foo", ⟨"foo", "foo", 0, [⟨"x", 5, none⟩]⟩)] =
        some ⟨"foo", "foo", 0, varsOf emptyUnit [(1, varX)]⟩) :=
  ⟨rfl,
   c1_attribution emptyUnit [] [(1, varX)] 0 subFoo "foo" "foo" 0
     ⟨[("foo", ⟨"foo", "foo", 0, [⟨"x", 5, none⟩]⟩)], some "foo"⟩
     rfl rfl (by decide) rfl⟩

/-- C2: two subprogram entries sharing a linkage name leave exactly one
symbol-table entry for that key, carrying the later entry's name,
linkage name and return type, and exactly the variables encountered
after the later entry — the earlier record is fully replaced. -/
theorem c2_last_write_wins (u : UnitCtx) (pre mid post : List (Int × Entry))
    (d1 d2 : Int) (e1 e2 : Entry) (nm1 nm2 L : String) (rt1 rt2 : Nat)
    (s' : SymState)
    (ht1 : e1.tag = Tag.DW_TAG_subprogram)
    (ht2 : e2.tag = Tag.DW_TAG_subprogram)
    (ha1 : subprogramAttrs u e1.attrs "" "" 0 = .ok (nm1, L, rt1))
    (ha2 : subprogramAttrs u e2.attrs "" "" 0 = .ok (nm2, L, rt2))
    (hmid : ∀ p ∈ mid, p.2.tag ≠ Tag.DW_TAG_subprogram)
    (hpost : ∀ p ∈ post, p.2.tag ≠ Tag.DW_TAG_subprogram)
    (hw : dump_unit u (pre ++ (d1, e1) :: (mid ++ (d2, e2) :: post)) 0
      initSym = (s', none)) :
    mapLookup L s'.subprogram_map = some ⟨nm2, L, rt2, varsOf u post⟩ ∧
    countKey L s'.subprogram_map = 1 := by
  have hnodup : ((dump_unit u
      (pre ++ (d1, e1) :: (mid ++ (d2, e2) :: post)) 0
      initSym).1.subprogram_map.map Prod.fst).Nodup :=
    dump_unit_keys_nodup u _ 0 initSym (by simp [initSym])
  rw [hw] at hnodup
  cases h0 : dump_unit u pre 0 initSym with
  | mk s0 err0 =>
    cases err0 with
    | some err =>
      rw [dump_unit_append_err u pre _ 0 initSym s0 err h0] at hw
      exact absurd hw (by simp)
    | none =>
      rw [dump_unit_append_ok u pre _ 0 initSym s0 h0] at hw
      have hstep1 := stepEntry_subprogram u e1 s0 nm1 L rt1 ht1 ha1
      simp only [dump_unit, hstep1] at hw
      cases h1 : dump_unit u mid (0 + d1)
          ⟨mapInsert L ⟨nm1, L, rt1, []⟩ s0.subprogram_map, some L⟩ with
      | mk s2 err2 =>
        cases err2 with
        | some err =>
          rw [dump_unit_append_err u mid _ _ _ s2 err h1] at hw
          exact absurd hw (by simp)
        | none =>
          rw [dump_unit_append_ok u mid _ _ _ s2 h1] at hw
          have hstep2 := stepEntry_subprogram u e2 s2 nm2 L rt2 ht2 ha2
          simp only [dump_unit, hstep2] at hw
          obtain ⟨hcur3, hlook3⟩ := dump_unit_no_sub u post hpost _ _ _ hw
          have hfin := hlook3 L ⟨nm2, L, rt2, []⟩ rfl
            (mapLookup_mapInsert_self L ⟨nm2, L, rt2, []⟩ s2.subprogram_map)
          refine ⟨by simpa using hfin, ?_⟩
          exact countKey_eq_one L s'.subprogram_map
            ⟨nm2, L, rt2, varsOf u post⟩ hnodup (by simpa using hfin)

/-- C2 witness: "foo" is declared twice; the final table holds one
record for "foo", with the second declaration's attributes and only the
variable encountered after it. -/
theorem c2_last_write_wins_witness :
    dump_unit emptyUnit ([] ++ (0, subFoo) :: ([(1, varX)] ++
        (0, subFoo2) :: [(1, varY)])) 0 initSym =
      (⟨[("foo", ⟨"bar", "foo", 7, [⟨"y", 9, none⟩]⟩)], some "foo"⟩,
        none) ∧
    (mapLookup "foo" [("foo", ⟨"bar", "foo", 7, [⟨"y", 9, none⟩]⟩)] =
        some ⟨"bar", "foo", 7, varsOf emptyUnit [(1, varY)]⟩ ∧
      countKey "foo" [("foo", ⟨"bar", "foo", 7, [⟨"y", 9, none⟩]⟩)] = 1) :=
  ⟨rfl,
   c2_last_write_wins emptyUnit [] [(1, varX)] [(1, varY)] 0 0 subFoo
     subFoo2 "foo" "bar" "foo" 0 7
     ⟨[("foo", ⟨"bar", "foo", 7, [⟨"y", 9, none⟩]⟩)], some "foo"⟩
     rfl rfl rfl rfl (by decide) (by decide) rfl⟩

/-- C8: a variable entry encountered before any subprogram entry is
silently dropped — the whole walk result (table, cursor and error
status) is as if the entry were not there at all. -/
theorem c8_orphan_drop (u : UnitCtx) (pre post : List (Int × Entry))
    (delta : Int) (e : Entry) (t : String × Nat × Option Int)
    (hpre : ∀ p ∈ pre, p.2.tag ≠ Tag.DW_TAG_subprogram)
    (ht : e.tag = Tag.DW_TAG_variable)
    (ha : variableAttrs u e.attrs "" 0 none = .ok t) :
    dump_unit u (pre ++ (delta, e) :: post) 0 initSym =
      dump_unit u (pre ++ post) 0 initSym := by
  cases h0 : dump_unit u pre 0 initSym with
  | mk s0 err0 =>
    cases err0 with
    | some err =>
      rw [dump_unit_append_err u pre _ 0 initSym s0 err h0,
        dump_unit_append_err u pre _ 0 initSym s0 err h0]
    | none =>
      have hc : s0.current_subprogram = none := by
        have hnone := dump_unit_current_none u pre hpre 0 initSym rfl
        rw [h0] at hnone
        exact hnone
      rw [dump_unit_append_ok u pre _ 0 initSym s0 h0,
        dump_unit_append_ok u pre _ 0 initSym s0 h0]
      have hstep := stepEntry_variable_none u e s0 t ht ha hc
      simp only [dump_unit, hstep]
      exact dump_unit_depth u post _ 0 s0

/-- C8 witness: the lone orphan variable "x" has no effect: the walk
equals the empty walk and ends with an empty table and no error. -/
theorem c8_orphan_drop_witness :
    variableAttrs emptyUnit varX.attrs "" 0 none = .ok ("x", 5, none) ∧
    dump_unit emptyUnit ([] ++ (0, varX) :: []) 0 initSym =
      dump_unit emptyUnit ([] ++ []) 0 initSym ∧
    dump_unit emptyUnit [(0, varX)] 0 initSym = (initSym, none) :=
  ⟨rfl,
   c8_orphan_drop emptyUnit [] [] 0 varX ("x", 5, none) (by decide)
     rfl rfl,
   rfl⟩

/-- C9: once a subprogram entry sets the cursor, it stays set to that
linkage name at every later step until the next subprogram entry; depth
deltas never affect the walk, so the cursor is not cleared when the
depth decreases below the subprogram's depth. -/
theorem c9_cursor_persistence (u : UnitCtx) (pre mid : List (Int × Entry))
    (delta : Int) (e : Entry) (nm L : String) (rt : Nat) (s' : SymState)
    (ht : e.tag = Tag.DW_TAG_subprogram)
    (ha : subprogramAttrs u e.attrs "" "" 0 = .ok (nm, L, rt))
    (hmid : ∀ p ∈ mid, p.2.tag ≠ Tag.DW_TAG_subprogram)
    (hw : dump_unit u (pre ++ (delta, e) :: mid) 0 initSym = (s', none)) :
    (∀ mid1 mid2, mid = mid1 ++ mid2 →
      (dump_unit u (pre ++ (delta, e) :: mid1) 0
        initSym).1.current_subprogram = some L) ∧
    (∀ d d' : Int, ∀ s : SymState,
      dump_unit u (pre ++ (delta, e) :: mid) d s =
        dump_unit u (pre ++ (delta, e) :: mid) d' s) := by
  refine ⟨?_, fun d d' s => dump_unit_depth u _ d d' s⟩
  intro mid1 mid2 hsplit
  subst hsplit
  cases h0 : dump_unit u pre 0 initSym with
  | mk s0 err0 =>
    cases err0 with
    | some err =>
      rw [dump_unit_append_err u pre _ 0 initSym s0 err h0] at hw
      exact absurd hw (by simp)
    | none =>
      rw [dump_unit_append_ok u pre _ 0 initSym s0 h0] at hw
      rw [dump_unit_append_ok u pre _ 0 initSym s0 h0]
      have hstep := stepEntry_subprogram u e s0 nm L rt ht ha
      simp only [dump_unit, hstep] at hw ⊢
      cases h1 : dump_unit u mid1 (0 + delta)
          ⟨mapInsert L ⟨nm, L, rt, []⟩ s0.subprogram_map, some L⟩ with
      | mk sm errm =>
        cases errm with
        | some err =>
          rw [dump_unit_append_err u mid1 mid2 _ _ sm err h1] at hw
          exact absurd hw (by simp)
        | none =>
          have hmid1 : ∀ p ∈ mid1, p.2.tag ≠ Tag.DW_TAG_subprogram :=
            fun p hp => hmid p (List.mem_append_left _ hp)
          obtain ⟨hcur, -⟩ := dump_unit_no_sub u mid1 hmid1 _ _ _ h1
          exact hcur

/-- C9 witness: after the subprogram "foo" the walk meets a variable at
a depth delta of -1 (leaving the subprogram's subtree); the cursor still
reads "foo". -/
theorem c9_cursor_persistence_witness :
    dump_unit emptyUnit ([] ++ (0, subFoo) :: [(-1, varX)]) 0 initSym =
      (⟨[("foo", ⟨"foo", "foo", 0, [⟨"x", 5, none⟩]⟩)], some "foo"⟩,
        none) ∧
    (dump_unit emptyUnit ([] ++ (0, subFoo) :: [(-1, varX)]) 0
      initSym).1.current_subprogram = some "foo" :=
  ⟨rfl,
   (c9_cursor_persistence emptyUnit [] [(-1, varX)] 0 subFoo "foo" "foo" 0
     ⟨[("foo", ⟨"foo", "foo", 0, [⟨"x", 5, none⟩]⟩)], some "foo"⟩
     rfl rfl (by decide) rfl).1 [(-1, varX)] [] rfl⟩

/-- C10: whenever the cursor holds a key, that key is present in the
symbol table; consequently a variable arriving while a subprogram is
open is appended to that subprogram's record — never dropped by a
failed lookup. -/
theorem c10_cursor_key_in_map (u : UnitCtx) (es : List (Int × Entry)) :
    (∀ k, (dump_unit u es 0 initSym).1.current_subprogram = some k →
      (mapLookup k (dump_unit u es 0 initSym).1.subprogram_map).isSome) ∧
    (∀ k e t, e.tag = Tag.DW_TAG_variable →
      variableAttrs u e.attrs "" 0 none = .ok t →
      (dump_unit u es 0 initSym).1.current_subprogram = some k →
      ∃ sp, mapLookup k (dump_unit u es 0 initSym).1.subprogram_map =
          some sp ∧
        stepEntry u e (dump_unit u es 0 initSym).1 =
          .ok { (dump_unit u es 0 initSym).1 with
            subprogram_map := mapPushVar k (mkVariable t)
                                (dump_unit u es 0 initSym).1.subprogram_map } ∧
        mapLookup k (mapPushVar k (mkVariable t)
            (dump_unit u es 0 initSym).1.subprogram_map) =
          some { sp with vars := sp.vars ++ [mkVariable t] }) := by
  have hinv := dump_unit_current_in_map u es 0 initSym
    (by intro k hk; simp [initSym] at hk)
  refine ⟨hinv, ?_⟩
  intro k e t ht ha hcur
  have hsome := hinv k hcur
  cases hsp : mapLookup k (dump_unit u es 0 initSym).1.subprogram_map with
  | none =>
    rw [hsp] at hsome
    simp at hsome
  | some sp =>
    exact ⟨sp, rfl,
      stepEntry_variable_some u e _ t k ht ha hcur,
      mapLookup_mapPushVar_self k (mkVariable t) _ sp hsp⟩

/-- C10 witness: after walking just the subprogram "foo" the cursor
reads "foo", the key "foo" is in the table, and stepping the variable
"x" appends it to that record. -/
theorem c10_cursor_key_in_map_witness :
    (dump_unit emptyUnit [(0, subFoo)] 0 initSym).1.current_subprogram =
      some "foo" ∧
    ∃ sp, mapLookup "foo"
        (dump_unit emptyUnit [(0, subFoo)] 0 initSym).1.subprogram_map =
        some sp ∧
      stepEntry emptyUnit varX
          (dump_unit emptyUnit [(0, subFoo)] 0 initSym).1 =
        .ok { (dump_unit emptyUnit [(0, subFoo)] 0 initSym).1 with
          subprogram_map := mapPushVar "foo" (mkVariable ("x", 5, none))
                              ((dump_unit emptyUnit [(0, subFoo)] 0
                                  initSym).1.subprogram_map) } ∧
      mapLookup "foo" (mapPushVar "foo" (mkVariable ("x", 5, none))
          (dump_unit emptyUnit [(0, subFoo)] 0 initSym).1.subprogram_map) =
        some { sp with vars := sp.vars ++ [mkVariable ("x", 5, none)] } :=
  ⟨rfl,
   (c10_cursor_key_in_map emptyUnit [(0, subFoo)]).2 "foo" varX
     ("x", 5, none) rfl rfl rfl⟩

end GimliParser
